import Mathlib

/-!
Verification of the propagation engine of a finite-domain CSP solver
(`propagators.py`) together with the puzzle-model helpers it is shipped
with (`puzzle_csp.py`).

The variable/constraint layer (`cspbase`) is imported by the sources but is
not one of them; it is modelled from the specification's data model and
external-interface sections: a variable carries a fixed domain, a current
domain kept as a list of membership flags parallel to the fixed domain
(the propagator reads the flag list directly, `True not in x.curdom`), and
an optional assigned value; a constraint is an ordered scope of variable
indices plus an explicit list of satisfying tuples; a CSP is a list of
constraints, and the mutable variable store is a total map from variable
indices to variable records which every operation threads explicitly.
-/

/-- Modelled from the spec: a variable of the data model.  `dom` is the
domain fixed at creation, `curdom` the parallel list of current-domain
membership flags, `assigned` the optional assigned value. -/
structure Variable where
  dom : List Int
  curdom : List Bool
  assigned : Option Int
deriving DecidableEq, Repr

instance : Inhabited Variable := ⟨⟨[], [], none⟩⟩

/-- Current domain of a variable: the domain values whose flag is set. -/
def cur_domain (v : Variable) : List Int :=
  (v.dom.zip v.curdom).filterMap (fun p => if p.2 then some p.1 else none)

/-- Clear the membership flag at the first occurrence of a value in the
fixed domain: the effect of the data model's `prune_value`. -/
def pruneFlag : List Int → List Bool → Int → List Bool
  | [], cd, _ => cd
  | _ :: _, [], _ => []
  | d :: ds, b :: bs, x => if d = x then false :: bs else b :: pruneFlag ds bs x

/-- Prune one value from a variable's current domain. -/
def Variable.pruneValue (v : Variable) (x : Int) : Variable :=
  { v with curdom := pruneFlag v.dom v.curdom x }

/-- The mutable variable store: the list of variable records, a variable
being identified with its index. -/
abbrev VState := List Variable

/-- Look up the record of one variable. -/
def getV (s : VState) (i : Nat) : Variable := s.getD i default

/-- The data model's `assign`. -/
def assignVar (s : VState) (i : Nat) (d : Int) : VState :=
  s.set i { getV s i with assigned := some d }

/-- The data model's `unassign`. -/
def unassignVar (s : VState) (i : Nat) : VState :=
  s.set i { getV s i with assigned := none }

/-- The data model's `prune_value` lifted to the store. -/
def pruneVar (s : VState) (i : Nat) (x : Int) : VState :=
  s.set i ((getV s i).pruneValue x)

/-- Modelled from the spec: a constraint is an ordered scope of variable
indices together with the explicit list of satisfying tuples. -/
structure Constraint where
  scope : List Nat
  satTuples : List (List Int)
deriving DecidableEq

instance : Inhabited Constraint := ⟨⟨[], []⟩⟩

/-- `check`: a tuple of assigned values (in scope order) satisfies the
constraint iff it is a member of the satisfying-tuple list; an unassigned
slot is `none` and never matches an integer entry. -/
def Constraint.check (c : Constraint) (vals : List (Option Int)) : Bool :=
  c.satTuples.any (fun t => t.map some == vals)

/-- The assigned values of a constraint's scope, in scope order (the
`vals` list every propagator builds before calling `check`). -/
def scopeVals (c : Constraint) (s : VState) : List (Option Int) :=
  c.scope.map (fun i => (getV s i).assigned)

/-- The data model's `get_unasgn_vars`: unassigned scope members in scope
order. -/
def Constraint.unasgnVars (c : Constraint) (s : VState) : List Nat :=
  c.scope.filter (fun i => ((getV s i).assigned).isNone)

/-- The data model's `get_n_unasgn`. -/
def Constraint.nUnasgn (c : Constraint) (s : VState) : Nat :=
  (c.unasgnVars s).length

/-- Modelled from the spec: a CSP is its constraint list; constraints are
identified by their position, which plays the role of object identity. -/
structure CSP where
  cons : List Constraint
deriving DecidableEq

/-- `get_all_cons`, as the list of constraint indices. -/
def allCons (csp : CSP) : List Nat := List.range csp.cons.length

/-- `get_cons_with_var`: the indices of the constraints whose scope
contains the given variable, in constraint order. -/
def consWithVar (csp : CSP) (v : Nat) : List Nat :=
  (List.range csp.cons.length).filter (fun i => (csp.cons.getD i default).scope.contains v)

/-! ## Plain backtracking propagator (`prop_BT`) -/

/-- The loop of `prop_BT`: scan the constraints containing the changed
variable; a fully assigned constraint whose check fails stops the scan
with `false`. -/
def btLoop (csp : CSP) (s : VState) : List Nat → Bool
  | [] => true
  | ci :: rest =>
    let c := csp.cons.getD ci default
    if c.nUnasgn s = 0 then
      if c.check (scopeVals c s) then btLoop csp s rest else false
    else btLoop csp s rest

/-- `prop_BT`: plain backtracking propagation.  Returns the success flag,
the pruning record, and the (unchanged) variable store. -/
def prop_BT (csp : CSP) (s : VState) (newVar : Option Nat) : Bool × List (Nat × Int) × VState :=
  match newVar with
  | none => (true, [], s)
  | some v => (btLoop csp s (consWithVar csp v), [], s)

/-! ## Forward checking (`prop_FC`, `fccheck`) -/

/-- The value loop of `fccheck`: for each candidate value, tentatively
assign it, check the constraint on the assigned scope, prune the value on
failure, and undo the tentative assignment.  Returns the values pruned (in
iteration order) and the resulting store. -/
def fcLoopVals (con : Constraint) (x : Nat) : List Int → VState → List Int × VState
  | [], s => ([], s)
  | d :: ds, s =>
    let s1 := assignVar s x d
    let ok := con.check (scopeVals con s1)
    let s2 := if ok then s1 else pruneVar s1 x d
    let s3 := unassignVar s2 x
    let r := fcLoopVals con x ds s3
    ((if ok then r.1 else d :: r.1), r.2)

/-- `fccheck`: run the value loop over the current domain of the target
variable, then report `true` (OK) iff a set flag remains in its current
domain list — the source's `True not in x.curdom` wipeout test negated. -/
def fccheck (con : Constraint) (x : Nat) (s : VState) : Bool × List Int × VState :=
  let r := fcLoopVals con x (cur_domain (getV s x)) s
  (((getV r.2 x).curdom).contains true, r.1, r.2)

/-- The constraint scan shared by both branches of `prop_FC`: run
`fccheck` on every listed constraint with exactly one unassigned variable,
collecting (variable, value) pairs, and stop at the first domain wipeout.
Returns the wipeout flag, the collected pairs, and the store. -/
def fcScan (csp : CSP) : List Nat → VState → Bool × List (Nat × Int) × VState
  | [], s => (false, [], s)
  | ci :: rest, s =>
    let c := csp.cons.getD ci default
    if c.nUnasgn s = 1 then
      let uv := (c.unasgnVars s).headD 0
      let r := fccheck c uv s
      let pairs := r.2.1.map (fun d => (uv, d))
      if r.1 then
        let r2 := fcScan csp rest r.2.2
        (r2.1, pairs ++ r2.2.1, r2.2.2)
      else
        (true, pairs, r.2.2)
    else fcScan csp rest s

/-- The outer loop of `prop_FC`'s pre-search branch, as written in the
source: `rp` is the inner accumulator `result_pruned` (never reset between
outer iterations), `succ` the `success` flag (overwritten by each
triggered iteration), and `pr` the `pruned` list that each triggered
iteration extends with the whole of `rp`. -/
def fcOuter (csp : CSP) : List Nat → VState → List (Nat × Int) → Bool → List (Nat × Int) →
    Bool × List (Nat × Int) × VState
  | [], s, _, succ, pr => (succ, pr, s)
  | ci :: rest, s, rp, succ, pr =>
    let c := csp.cons.getD ci default
    if c.nUnasgn s = 1 then
      let nv := (c.unasgnVars s).headD 0
      let r := fcScan csp (consWithVar csp nv) s
      let rp2 := rp ++ r.2.1
      fcOuter csp rest r.2.2 rp2 (!r.1) (pr ++ rp2)
    else fcOuter csp rest s rp succ pr

/-- `prop_FC`: forward-checking propagation. -/
def prop_FC (csp : CSP) (s : VState) (newVar : Option Nat) : Bool × List (Nat × Int) × VState :=
  match newVar with
  | none => fcOuter csp (allCons csp) s [] true []
  | some v =>
    let r := fcScan csp (consWithVar csp v) s
    (!r.1, r.2.1, r.2.2)

/-! ## Generalized arc consistency (`prop_GAC`, `gac_enforce`) -/

/-- The source's `product` helper: the Cartesian product of a list of
domains, first factor outermost. -/
def cartProd : List (List Int) → List (List Int)
  | [] => [[]]
  | d :: ds => d.flatMap (fun x => (cartProd ds).map (fun rest => x :: rest))

/-- Assign a list of (variable, value) pairs in order. -/
def assignList : List (Nat × Int) → VState → VState
  | [], s => s
  | (u, d) :: rest, s => assignList rest (assignVar s u d)

/-- Unassign a list of variables in order. -/
def unassignList : List Nat → VState → VState
  | [], s => s
  | u :: rest, s => unassignList rest (unassignVar s u)

/-- The support search of `gac_enforce`: walk the combination list, assign
each combination to the other unassigned variables, check the constraint
on the assigned scope, undo the trial assignments, and stop at the first
satisfying combination. -/
def findSupport (c : Constraint) (uvars : List Nat) : List (List Int) → VState → Bool × VState
  | [], s => (false, s)
  | combo :: rest, s =>
    let s1 := assignList (uvars.zip combo) s
    let found := c.check (scopeVals c s1)
    let s2 := unassignList uvars s1
    if found then (true, s2) else findSupport c uvars rest s2

/-- The source's append loop for re-propagation: append each listed
constraint not already present in the queue. -/
def enqueueNew (q : List Nat) : List Nat → List Nat
  | [] => q
  | e :: es => enqueueNew (if e ∈ q then q else q ++ [e]) es

/-- The support test that `gac_enforce` effectively performs for a value
`x` of an unassigned variable `v` of constraint `c`: tentatively assign
`x`, enumerate the Cartesian product of the other unassigned variables'
current domains, and ask for one satisfying scope tuple. -/
def hasSupport (c : Constraint) (s : VState) (v : Nat) (x : Int) : Bool :=
  let s1 := assignVar s v x
  let uvars := c.unasgnVars s1
  let combos := cartProd (uvars.map (fun u => cur_domain (getV s1 u)))
  combos.any (fun combo => c.check (scopeVals c (assignList (uvars.zip combo) s1)))

/-- The value loop of `gac_enforce` for one unassigned variable `v`:
probe each value, prune it when no support exists, return early on a
domain wipeout (discarding the queue), otherwise enqueue the constraints
containing `v`.  `Sum.inl` carries (store, queue, pruned) to continue
with; `Sum.inr` carries (store, pruned) of a wipeout. -/
def gacValues (csp : CSP) (c : Constraint) (v : Nat) :
    List Int → VState → List Nat → List (Nat × Int) →
    (VState × List Nat × List (Nat × Int)) ⊕ (VState × List (Nat × Int))
  | [], s, q, acc => Sum.inl (s, q, acc)
  | x :: xs, s, q, acc =>
    let s1 := assignVar s v x
    let uvars := c.unasgnVars s1
    let combos := cartProd (uvars.map (fun u => cur_domain (getV s1 u)))
    let fs := findSupport c uvars combos s1
    let s3 := unassignVar fs.2 v
    if fs.1 then gacValues csp c v xs s3 q acc
    else
      let s4 := pruneVar s3 v x
      let acc2 := acc ++ [(v, x)]
      if cur_domain (getV s4 v) = [] then Sum.inr (s4, acc2)
      else gacValues csp c v xs s4 (enqueueNew q (consWithVar csp v)) acc2

/-- The variable loop of `gac_enforce` for one popped constraint. -/
def gacVars (csp : CSP) (c : Constraint) :
    List Nat → VState → List Nat → List (Nat × Int) →
    (VState × List Nat × List (Nat × Int)) ⊕ (VState × List (Nat × Int))
  | [], s, q, acc => Sum.inl (s, q, acc)
  | v :: vs, s, q, acc =>
    match gacValues csp c v (cur_domain (getV s v)) s q acc with
    | Sum.inl r => gacVars csp c vs r.1 r.2.1 r.2.2
    | Sum.inr r => Sum.inr r

/-- Process one popped constraint of the GAC worklist: iterate over its
currently unassigned variables. -/
def processCon (csp : CSP) (c : Constraint) (s : VState) (q : List Nat) :
    (VState × List Nat × List (Nat × Int)) ⊕ (VState × List (Nat × Int)) :=
  gacVars csp c (c.unasgnVars s) s q []

/-- The worklist loop of `gac_enforce`, with an explicit iteration budget;
`none` means the budget was exhausted (never the case for the budget
`bigFuel` below, since every iteration either shortens the queue or
removes a current-domain flag of a scope variable). -/
def gacLoop (csp : CSP) : Nat → List Nat → VState → List (Nat × Int) →
    Option (Bool × List (Nat × Int) × VState)
  | 0, _, _, _ => none
  | _ + 1, [], s, acc => some (true, acc, s)
  | fuel + 1, ci :: qrest, s, acc =>
    match processCon csp (csp.cons.getD ci default) s qrest with
    | Sum.inl r => gacLoop csp fuel r.2.1 r.1 (acc ++ r.2.2)
    | Sum.inr r => some (false, acc ++ r.2, r.1)

/-- Total count of set current-domain flags over all constraint scopes:
a bound on how many prunes any `gac_enforce` run can perform. -/
def flagsBound (csp : CSP) (s : VState) : Nat :=
  (csp.cons.map (fun c => (c.scope.map (fun v => (getV s v).curdom.count true)).sum)).sum

/-- An iteration budget sufficient for the worklist loop to reach its
fixpoint: each iteration with no prune shortens the queue, and each prune
(at most `flagsBound` of them) lengthens it by at most the number of
constraints. -/
def bigFuel (csp : CSP) (s : VState) (q : List Nat) : Nat :=
  q.length + flagsBound csp s * csp.cons.length + 1

/-- `gac_enforce`: run the worklist to completion. -/
def gac_enforce (csp : CSP) (s : VState) (q : List Nat) :
    Option (Bool × List (Nat × Int) × VState) :=
  gacLoop csp (bigFuel csp s q) q s []

/-- `prop_GAC`: seed the worklist with every constraint (pre-search call)
or with the constraints containing the newly assigned variable. -/
def prop_GAC (csp : CSP) (s : VState) (newVar : Option Nat) :
    Option (Bool × List (Nat × Int) × VState) :=
  match newVar with
  | none => gac_enforce csp s (allCons csp)
  | some v => gac_enforce csp s (consWithVar csp v)

/-- Success-flag projection of a GAC result. -/
def gacOk (r : Option (Bool × List (Nat × Int) × VState)) : Option Bool :=
  r.map (fun p => p.1)

/-- Pruning-record projection of a GAC result. -/
def gacPruned (r : Option (Bool × List (Nat × Int) × VState)) : Option (List (Nat × Int)) :=
  r.map (fun p => p.2.1)

/-- Store projection of a GAC result. -/
def gacState (r : Option (Bool × List (Nat × Int) × VState)) : Option VState :=
  r.map (fun p => p.2.2)

/-- The worklist and store of `gac_enforce` at the start of its `n`-th
loop iteration (after the loop has finished, the pair is frozen with an
empty worklist, matching the source's discarding of the queue). -/
def gacQueueAt (csp : CSP) : Nat → List Nat → VState → List Nat × VState
  | 0, q, s => (q, s)
  | _ + 1, [], s => ([], s)
  | n + 1, ci :: qrest, s =>
    match processCon csp (csp.cons.getD ci default) s qrest with
    | Sum.inl r => gacQueueAt csp n r.2.1 r.1
    | Sum.inr r => ([], r.1)

/-- Modelled from the spec: the per-value loop of `fc-check` as the
specification words it — for every value still in the target's current
domain, tentatively assign it, evaluate the constraint on the
fully-assigned scope, on violation record the value as pruned and remove
it from the current domain, and always undo the tentative assignment
before trying the next value. -/
def fcLoopValsSpec (con : Constraint) (x : Nat) : List Int → VState → List Int × VState
  | [], s => ([], s)
  | d :: ds, s =>
    let s1 := assignVar s x d
    let ok := con.check (scopeVals con s1)
    let s2 := if ok then s1 else pruneVar s1 x d
    let s3 := unassignVar s2 x
    let r := fcLoopValsSpec con x ds s3
    ((if ok then r.1 else d :: r.1), r.2)

/-- Modelled from the spec: the `fc-check` primitive, signalling
domain-wipeout exactly when the resulting current domain is empty after
the scan. -/
def fccheckSpec (con : Constraint) (x : Nat) (s : VState) : Bool × List Int × VState :=
  let r := fcLoopValsSpec con x (cur_domain (getV s x)) s
  (!(cur_domain (getV r.2 x)).isEmpty, r.1, r.2)

/-- Modelled from the spec: the constraint scan of forward checking with a
changed variable present — run `fc-check` exactly for the listed
constraints with one remaining unassigned variable, accumulate the pruned
pairs, and stop at the first domain-wipeout. -/
def fcScanSpec (csp : CSP) : List Nat → VState → Bool × List (Nat × Int) × VState
  | [], s => (false, [], s)
  | ci :: rest, s =>
    let c := csp.cons.getD ci default
    if c.nUnasgn s = 1 then
      let uv := (c.unasgnVars s).headD 0
      let r := fccheckSpec c uv s
      let pairs := r.2.1.map (fun d => (uv, d))
      if r.1 then
        let r2 := fcScanSpec csp rest r.2.2
        (r2.1, pairs ++ r2.2.1, r2.2.2)
      else
        (true, pairs, r.2.2)
    else fcScanSpec csp rest s

/-- Modelled from the spec: forward checking after a new assignment,
returning false plus the accumulated pruning iff a wipeout was found. -/
def propFCSpec (csp : CSP) (s : VState) (v : Nat) : Bool × List (Nat × Int) × VState :=
  let r := fcScanSpec csp (consWithVar csp v) s
  (!r.1, r.2.1, r.2.2)

/-- A constraint is arc-consistent in a store when every value of every
currently unassigned scope variable has a support (in the exact sense of
the support search performed by `gac_enforce`). -/
def arcConsistent (c : Constraint) (s : VState) : Prop :=
  ∀ v ∈ c.unasgnVars s, ∀ x ∈ cur_domain (getV s v), hasSupport c s v x = true

/-! ## Puzzle models (`puzzle_csp.py`) -/

/-- The domain `1 .. n` of an `n` by `n` FunPuzz grid. -/
def oneToN (n : Nat) : List Int := (List.range n).map (fun i => (i : Int) + 1)

/-- `pair_distinct_pairs`: all ordered pairs of distinct domain values, as
built by the source (for each `i`, pair it with the ascending domain with
`i` removed). -/
def pair_distinct_pairs (n : Nat) : List (List Int) :=
  (oneToN n).flatMap (fun i => ((oneToN n).erase i).map (fun j => [i, j]))

/-- The binary not-equal constraints generated while visiting cell
(`r`, `c`): one per later cell of the same row, then one per later cell of
the same column.  Cell (`r`, `c`) has variable index `r * n + c`. -/
def rowColCons (n r c : Nat) : List Constraint :=
  ((List.range' (c + 1) (n - (c + 1))).map
    (fun c2 => Constraint.mk [r * n + c, r * n + c2] (pair_distinct_pairs n)))
  ++ ((List.range' (r + 1) (n - (r + 1))).map
    (fun r2 => Constraint.mk [r * n + c, r2 * n + c] (pair_distinct_pairs n)))

/-- `binary_ne_grid`: the grid CSP built from binary not-equal constraints,
cells visited in row-major order. -/
def binary_ne_grid (n : Nat) : CSP :=
  ⟨(List.range n).flatMap (fun r => (List.range n).flatMap (fun c => rowColCons n r c))⟩

/-- The fresh variable store of an `n` by `n` grid: every cell carries
domain `1 .. n`, all flags set, no assignment. -/
def gridInit (n : Nat) : VState :=
  List.replicate (n * n) { dom := oneToN n, curdom := List.replicate n true, assigned := none }

/-- The arithmetic operators of `evaluate` that denote integer operations
(the division operator of the source uses floating-point semantics and is
outside the claims considered here). -/
inductive Op
  | add
  | sub
  | mul
deriving DecidableEq

/-- One application of an operator. -/
def applyOp : Op → Int → Int → Int
  | Op.add, a, b => a + b
  | Op.sub, a, b => a - b
  | Op.mul, a, b => a * b

/-- The value of the expression string `evaluate` builds for one
permutation: a single-operator chain, evaluated left to right. -/
def evalChain (op : Op) : List Int → Int
  | [] => 0
  | x :: xs => xs.foldl (applyOp op) x

/-- `evaluate`: some permutation of `nums`, chained with `op`, equals
`result`. -/
def evaluate (nums : List Int) (op : Op) (result : Int) : Bool :=
  nums.permutations.any (fun p => evalChain op p == result)

/-! ## Concrete instances used by the claims -/

/-- Two variables with domain `{1}`; constraint 0 is a unary constraint on
variable 0 with no satisfying tuple, constraint 1 a unary constraint on
variable 1 satisfied by value 1. -/
def cspWipe : CSP := ⟨[⟨[0], []⟩, ⟨[1], [[1]]⟩]⟩

/-- Store with both variables fresh on domain `{1}`. -/
def sDom1 : VState := [⟨[1], [true], none⟩, ⟨[1], [true], none⟩]

/-- Two unary constraints on variable 0 over domain `{1, 2}`: the first
admits only value 1, the second admits both values. -/
def cspDup : CSP := ⟨[⟨[0], [[1]]⟩, ⟨[0], [[1], [2]]⟩]⟩

/-- Store with the single variable fresh on domain `{1, 2}`. -/
def sDom12 : VState := [⟨[1, 2], [true, true], none⟩]

/-- The 2 by 2 binary not-equal grid. -/
def csp22 : CSP := binary_ne_grid 2

/-- Its fresh store. -/
def s22 : VState := gridInit 2

/-- The store after the driver assigns cell (0,0) the value 1. -/
def s22a : VState := assignVar s22 0 1

/-- One constraint whose scope variable is already assigned a satisfying
value: processing it performs no store operation at all. -/
def cspIdem : CSP := ⟨[⟨[0], [[1]]⟩]⟩

/-- Store with the single variable assigned 1 on domain `{1}`. -/
def sAsgn1 : VState := [⟨[1], [true], some 1⟩]

/-! # Store lemmas -/

theorem getV_set_eq (s : VState) (i : Nat) (v : Variable) (h : i < s.length) :
    getV (s.set i v) i = v := by
  simp [getV, List.getD_eq_getElem?_getD, List.getElem?_set_self h]

theorem getV_set_ne (s : VState) (i j : Nat) (v : Variable) (h : j ≠ i) :
    getV (s.set i v) j = getV s j := by
  simp [getV, List.getD_eq_getElem?_getD, List.getElem?_set_ne (Ne.symm h)]

theorem set_getV_self (s : VState) (i : Nat) : s.set i (getV s i) = s := by
  apply List.ext_getElem?
  intro j
  rw [List.getElem?_set]
  by_cases hij : i = j
  · subst hij
    by_cases hl : i < s.length
    · simp only [hl, if_true, if_pos rfl]
      rw [getV, List.getD_eq_getElem?_getD, List.getElem?_eq_getElem hl]
      rfl
    · simp only [hl, if_false, if_pos rfl]
      exact (List.getElem?_eq_none (le_of_not_lt hl)).symm
  · simp [hij]

theorem variable_eq_of_fields {v w : Variable} (h1 : v.dom = w.dom)
    (h2 : v.curdom = w.curdom) (h3 : v.assigned = w.assigned) : v = w := by
  cases v
  cases w
  simp_all

theorem length_assignVar (s : VState) (i : Nat) (d : Int) :
    (assignVar s i d).length = s.length := by
  simp [assignVar]

theorem length_unassignVar (s : VState) (i : Nat) :
    (unassignVar s i).length = s.length := by
  simp [unassignVar]

theorem length_pruneVar (s : VState) (i : Nat) (x : Int) :
    (pruneVar s i x).length = s.length := by
  simp [pruneVar]

theorem pruneValue_assigned (v : Variable) (x : Int) :
    (v.pruneValue x).assigned = v.assigned := rfl

theorem pruneValue_dom (v : Variable) (x : Int) :
    (v.pruneValue x).dom = v.dom := rfl

theorem getV_pruneVar_ne (s : VState) (i u : Nat) (x : Int) (h : u ≠ i) :
    getV (pruneVar s i x) u = getV s u := getV_set_ne s i u _ h

theorem getV_assignVar_ne (s : VState) (i u : Nat) (d : Int) (h : u ≠ i) :
    getV (assignVar s i d) u = getV s u := getV_set_ne s i u _ h

theorem getV_unassignVar_ne (s : VState) (i u : Nat) (h : u ≠ i) :
    getV (unassignVar s i) u = getV s u := getV_set_ne s i u _ h

theorem pruneVar_assigned (s : VState) (i : Nat) (x : Int) (u : Nat) :
    (getV (pruneVar s i x) u).assigned = (getV s u).assigned := by
  by_cases hui : u = i
  · subst hui
    by_cases hl : u < s.length
    · rw [pruneVar, getV_set_eq _ _ _ hl, pruneValue_assigned]
    · rw [pruneVar, List.set_eq_of_length_le (le_of_not_lt hl)]
  · rw [getV_pruneVar_ne s i u x hui]

theorem unassign_assign_eq (s : VState) (i : Nat) (x : Int)
    (h : (getV s i).assigned = none) : unassignVar (assignVar s i x) i = s := by
  by_cases hl : i < s.length
  · show (assignVar s i x).set i _ = s
    have hA : getV (assignVar s i x) i = { getV s i with assigned := some x } :=
      getV_set_eq s i _ hl
    rw [hA]
    show (s.set i _).set i _ = s
    rw [List.set_set]
    have : ({ { getV s i with assigned := some x } with assigned := none } : Variable)
        = getV s i := variable_eq_of_fields rfl rfl h.symm
    rw [this, set_getV_self]
  · have e1 : assignVar s i x = s := List.set_eq_of_length_le (le_of_not_lt hl)
    rw [e1]
    exact List.set_eq_of_length_le (le_of_not_lt hl)

theorem unassign_prune_assign_eq (s : VState) (i : Nat) (x : Int)
    (h : (getV s i).assigned = none) :
    unassignVar (pruneVar (assignVar s i x) i x) i = pruneVar s i x := by
  by_cases hl : i < s.length
  · have hA : getV (assignVar s i x) i = { getV s i with assigned := some x } :=
      getV_set_eq s i _ hl
    have hl2 : i < (assignVar s i x).length := by rw [length_assignVar]; exact hl
    have hP : getV (pruneVar (assignVar s i x) i x) i
        = ({ getV s i with assigned := some x } : Variable).pruneValue x := by
      rw [pruneVar, getV_set_eq _ _ _ hl2, hA]
    show (pruneVar (assignVar s i x) i x).set i _ = pruneVar s i x
    rw [hP]
    show (((s.set i _).set i _).set i _ : VState) = pruneVar s i x
    rw [List.set_set, List.set_set]
    congr 1
    exact variable_eq_of_fields rfl rfl h.symm
  · have e1 : assignVar s i x = s := List.set_eq_of_length_le (le_of_not_lt hl)
    have e2 : pruneVar s i x = s := List.set_eq_of_length_le (le_of_not_lt hl)
    rw [e1, e2]
    exact List.set_eq_of_length_le (le_of_not_lt hl)

/-! # Plain backtracking -/

theorem btLoop_eq_true_iff (csp : CSP) (s : VState) : ∀ cis : List Nat,
    (btLoop csp s cis = true ↔
      ∀ ci ∈ cis, (csp.cons.getD ci default).nUnasgn s = 0 →
        (csp.cons.getD ci default).check (scopeVals (csp.cons.getD ci default) s) = true)
  | [] => by simp [btLoop]
  | ci :: rest => by
    rw [btLoop]
    by_cases h0 : (csp.cons.getD ci default).nUnasgn s = 0
    · by_cases hc : (csp.cons.getD ci default).check
          (scopeVals (csp.cons.getD ci default) s) = true
      · simp only [h0, if_true, hc, if_true, btLoop_eq_true_iff csp s rest]
        constructor
        · intro h c hc2
          rcases List.mem_cons.1 hc2 with h1 | h1
          · subst h1
            intro _
            exact hc
          · exact h c h1
        · intro h c hc2
          exact h c (List.mem_cons_of_mem ci hc2)
      · simp only [h0, if_true, hc, if_false]
        constructor
        · intro h
          exact absurd h (by simp)
        · intro h
          exact absurd (h ci (List.mem_cons_self ci rest) h0) hc
    · simp only [h0, if_false, btLoop_eq_true_iff csp s rest]
      constructor
      · intro h c hc2
        rcases List.mem_cons.1 hc2 with h1 | h1
        · subst h1
          intro h2
          exact absurd h2 h0
        · exact h c h1
      · intro h c hc2
        exact h c (List.mem_cons_of_mem ci hc2)

/-- C7: `prop_BT` with no changed variable returns `(true, [])` doing no
work; with a changed variable it leaves the store untouched, prunes
nothing, and succeeds iff every fully assigned constraint containing the
variable checks out on its scope-ordered assigned tuple (so it fails as
soon as one such constraint is violated). -/
theorem prop_BT_characterization (csp : CSP) (s : VState) (v : Nat) :
    prop_BT csp s none = (true, [], s) ∧
    (prop_BT csp s (some v)).2.1 = [] ∧
    (prop_BT csp s (some v)).2.2 = s ∧
    ((prop_BT csp s (some v)).1 = true ↔
      ∀ ci ∈ consWithVar csp v, (csp.cons.getD ci default).nUnasgn s = 0 →
        (csp.cons.getD ci default).check (scopeVals (csp.cons.getD ci default) s) = true) :=
  ⟨rfl, rfl, rfl, btLoop_eq_true_iff csp s (consWithVar csp v)⟩

/-! # The cage evaluator -/

theorem foldl_add_eq (xs : List Int) : ∀ x : Int, xs.foldl (applyOp Op.add) x = x + xs.sum := by
  induction xs with
  | nil => intro x; simp
  | cons y ys ih =>
    intro x
    rw [List.foldl_cons, List.sum_cons, ih]
    show x + y + ys.sum = x + (y + ys.sum)
    ring

theorem foldl_mul_eq (xs : List Int) : ∀ x : Int, xs.foldl (applyOp Op.mul) x = x * xs.prod := by
  induction xs with
  | nil => intro x; simp
  | cons y ys ih =>
    intro x
    rw [List.foldl_cons, List.prod_cons, ih]
    show x * y * ys.prod = x * (y * ys.prod)
    ring

theorem evalChain_add_eq_sum (l : List Int) : evalChain Op.add l = l.sum := by
  cases l with
  | nil => rfl
  | cons x xs => rw [evalChain, foldl_add_eq, List.sum_cons]

theorem evalChain_mul_eq_prod (l : List Int) (h : l ≠ []) : evalChain Op.mul l = l.prod := by
  cases l with
  | nil => exact absurd rfl h
  | cons x xs => rw [evalChain, foldl_mul_eq, List.prod_cons]

/-- C10: on a non-empty tuple of positive integers, `evaluate` with the
addition operator accepts exactly when the sum of the tuple equals the
requested result, and with the multiplication operator exactly when the
product does; commutativity makes the answer independent of the
permutation tried. -/
theorem evaluate_add_mul_spec (nums : List Int) (r : Int) (h1 : nums ≠ [])
    (_h2 : ∀ x ∈ nums, 0 < x) :
    (evaluate nums Op.add r = true ↔ nums.sum = r) ∧
    (evaluate nums Op.mul r = true ↔ nums.prod = r) := by
  constructor
  · rw [evaluate, List.any_eq_true]
    constructor
    · rintro ⟨p, hp, he⟩
      have hperm : p.Perm nums := List.mem_permutations.1 hp
      have : evalChain Op.add p = r := by exact_mod_cast beq_iff_eq.1 he
      rw [evalChain_add_eq_sum] at this
      rw [← hperm.sum_eq]
      exact this
    · intro h
      refine ⟨nums, List.mem_permutations.2 (List.Perm.refl nums), ?_⟩
      rw [beq_iff_eq, evalChain_add_eq_sum]
      exact h
  · rw [evaluate, List.any_eq_true]
    constructor
    · rintro ⟨p, hp, he⟩
      have hperm : p.Perm nums := List.mem_permutations.1 hp
      have hp0 : p ≠ [] := by
        intro he0
        apply h1
        have := hperm.length_eq
        rw [he0] at this
        exact List.length_eq_zero.1 this.symm
      have : evalChain Op.mul p = r := by exact_mod_cast beq_iff_eq.1 he
      rw [evalChain_mul_eq_prod p hp0] at this
      rw [← hperm.prod_eq]
      exact this
    · intro h
      refine ⟨nums, List.mem_permutations.2 (List.Perm.refl nums), ?_⟩
      rw [beq_iff_eq, evalChain_mul_eq_prod nums h1]
      exact h

/-- Witness for the evaluator theorem at the concrete tuple `[2, 3]`. -/
theorem evaluate_add_mul_spec_witness :
    (evaluate [2, 3] Op.add 5 = true ↔ ([2, 3] : List Int).sum = 5) ∧
    (evaluate [2, 3] Op.mul 5 = true ↔ ([2, 3] : List Int).prod = 5) :=
  evaluate_add_mul_spec [2, 3] 5 (by decide) (by decide)

/-! # Forward-checking pre-search defects -/

/-- C1 (defect witness): on `cspWipe` from `sDom1`, the inner scan for the
first constraint wipes variable 0 empty and reports the dead end, but the
outer loop's later iteration overwrites `success`; the pre-search call
returns `true` even though variable 0's current domain is empty at
return, and the wipeout pruning is recorded twice. -/
theorem fc_presearch_wipeout_overridden :
    (prop_FC cspWipe sDom1 none).1 = true ∧
    (prop_FC cspWipe sDom1 none).2.1 = [(0, 1), (0, 1)] ∧
    cur_domain (getV (prop_FC cspWipe sDom1 none).2.2 0) = [] := by decide

/-- C2 (defect witness): on `cspDup` from `sDom12`, a single domain
removal is performed (flag of value 2 cleared once), but the pre-search
call reports the pair `(0, 2)` twice because the inner accumulator is
re-appended on every outer iteration. -/
theorem fc_presearch_duplicate_pruning :
    (prop_FC cspDup sDom12 none).2.1 = [(0, 2), (0, 2)] ∧
    (getV sDom12 0).curdom = [true, true] ∧
    (getV (prop_FC cspDup sDom12 none).2.2 0).curdom = [true, false] := by decide

/-! # The 2 by 2 grid scenario -/

/-- C3 counterexample: after assigning cell (0,0) the value 1, the GAC
call does not return exactly the two pairs the claim names — transitive
propagation also prunes value 2 from cell (1,1). -/
theorem gac_grid22_claim_false :
    gacPruned (prop_GAC csp22 s22a (some 0)) ≠ some [(1, 1), (2, 1)] := by decide

/-- C3 amended: the initial GAC call on the 2 by 2 grid returns
`(true, [])` with the store unchanged; after the driver assigns cell
(0,0) the value 1, the GAC call succeeds with exactly the three pruned
pairs (cell (0,1) loses 1, cell (1,0) loses 1, cell (1,1) loses 2) in
that order, and cell (1,1)'s current domain becomes `[1]` — no wipeout. -/
theorem gac_grid22_scenario :
    prop_GAC csp22 s22 none = some (true, [], s22) ∧
    gacOk (prop_GAC csp22 s22a (some 0)) = some true ∧
    gacPruned (prop_GAC csp22 s22a (some 0)) = some [(1, 1), (2, 1), (3, 2)] ∧
    (gacState (prop_GAC csp22 s22a (some 0))).map (fun st => cur_domain (getV st 3))
      = some [1] := by decide

/-! # Pointwise field preservation of the store operations -/

theorem assignVar_dom (s : VState) (i : Nat) (d : Int) (u : Nat) :
    (getV (assignVar s i d) u).dom = (getV s u).dom := by
  by_cases hui : u = i
  · subst hui
    by_cases hl : u < s.length
    · rw [assignVar, getV_set_eq _ _ _ hl]
    · rw [assignVar, List.set_eq_of_length_le (le_of_not_lt hl)]
  · rw [assignVar, getV_set_ne _ _ _ _ hui]

theorem assignVar_curdom (s : VState) (i : Nat) (d : Int) (u : Nat) :
    (getV (assignVar s i d) u).curdom = (getV s u).curdom := by
  by_cases hui : u = i
  · subst hui
    by_cases hl : u < s.length
    · rw [assignVar, getV_set_eq _ _ _ hl]
    · rw [assignVar, List.set_eq_of_length_le (le_of_not_lt hl)]
  · rw [assignVar, getV_set_ne _ _ _ _ hui]

theorem unassignVar_dom (s : VState) (i : Nat) (u : Nat) :
    (getV (unassignVar s i) u).dom = (getV s u).dom := by
  by_cases hui : u = i
  · subst hui
    by_cases hl : u < s.length
    · rw [unassignVar, getV_set_eq _ _ _ hl]
    · rw [unassignVar, List.set_eq_of_length_le (le_of_not_lt hl)]
  · rw [unassignVar, getV_set_ne _ _ _ _ hui]

theorem unassignVar_curdom (s : VState) (i : Nat) (u : Nat) :
    (getV (unassignVar s i) u).curdom = (getV s u).curdom := by
  by_cases hui : u = i
  · subst hui
    by_cases hl : u < s.length
    · rw [unassignVar, getV_set_eq _ _ _ hl]
    · rw [unassignVar, List.set_eq_of_length_le (le_of_not_lt hl)]
  · rw [unassignVar, getV_set_ne _ _ _ _ hui]

theorem pruneVar_dom (s : VState) (i : Nat) (x : Int) (u : Nat) :
    (getV (pruneVar s i x) u).dom = (getV s u).dom := by
  by_cases hui : u = i
  · subst hui
    by_cases hl : u < s.length
    · rw [pruneVar, getV_set_eq _ _ _ hl, pruneValue_dom]
    · rw [pruneVar, List.set_eq_of_length_le (le_of_not_lt hl)]
  · rw [pruneVar, getV_set_ne _ _ _ _ hui]

theorem pruneFlag_length : ∀ (dom : List Int) (cd : List Bool) (x : Int),
    (pruneFlag dom cd x).length = cd.length
  | [], _, _ => rfl
  | _ :: _, [], _ => rfl
  | d :: ds, b :: bs, x => by
    rw [pruneFlag]
    by_cases h : d = x
    · simp [h]
    · simp only [h, if_false, List.length_cons, pruneFlag_length ds bs x]

theorem pruneVar_curdom_length (s : VState) (i : Nat) (x : Int) (u : Nat) :
    (getV (pruneVar s i x) u).curdom.length = (getV s u).curdom.length := by
  by_cases hui : u = i
  · subst hui
    by_cases hl : u < s.length
    · rw [pruneVar, getV_set_eq _ _ _ hl]
      exact pruneFlag_length _ _ _
    · rw [pruneVar, List.set_eq_of_length_le (le_of_not_lt hl)]
  · rw [pruneVar, getV_set_ne _ _ _ _ hui]

theorem mem_unasgnVars_assigned (c : Constraint) (s : VState) (u : Nat)
    (h : u ∈ c.unasgnVars s) : (getV s u).assigned = none := by
  have := (List.mem_filter.1 h).2
  exact Option.isNone_iff_eq_none.1 (by exact_mod_cast this)

theorem mem_unasgnVars_scope (c : Constraint) (s : VState) (u : Nat)
    (h : u ∈ c.unasgnVars s) : u ∈ c.scope :=
  (List.mem_filter.1 h).1

theorem headD_unasgn_assigned (c : Constraint) (s : VState) (h : c.nUnasgn s = 1) :
    (getV s ((c.unasgnVars s).headD 0)).assigned = none := by
  obtain ⟨w, hw⟩ := List.length_eq_one.1 h
  rw [hw]
  exact mem_unasgnVars_assigned c s w (by rw [hw]; exact List.mem_singleton_self w)

/-! # The forward-checking value loop -/

theorem fcLoopVals_state (con : Constraint) (x : Nat) :
    ∀ (ds : List Int) (s : VState), (getV s x).assigned = none →
      ∀ u, (getV (fcLoopVals con x ds s).2 u).assigned = (getV s u).assigned ∧
        (getV (fcLoopVals con x ds s).2 u).dom = (getV s u).dom ∧
        (getV (fcLoopVals con x ds s).2 u).curdom.length = (getV s u).curdom.length
  | [], s, _, u => ⟨rfl, rfl, rfl⟩
  | d :: ds, s, h, u => by
    rw [fcLoopVals]
    by_cases hok : con.check (scopeVals con (assignVar s x d)) = true
    · simp only [hok, if_true, unassign_assign_eq s x d h]
      exact fcLoopVals_state con x ds s h u
    · simp only [hok, if_false, Bool.false_eq_true, unassign_prune_assign_eq s x d h]
      have h2 : (getV (pruneVar s x d) x).assigned = none := by
        rw [pruneVar_assigned]; exact h
      obtain ⟨ha, hd, hc⟩ := fcLoopVals_state con x ds (pruneVar s x d) h2 u
      refine ⟨?_, ?_, ?_⟩
      · rw [ha, pruneVar_assigned]
      · rw [hd, pruneVar_dom]
      · rw [hc, pruneVar_curdom_length]

theorem fcLoopVals_length (con : Constraint) (x : Nat) :
    ∀ (ds : List Int) (s : VState), ((fcLoopVals con x ds s).2).length = s.length
  | [], _ => rfl
  | d :: ds, s => by
    rw [fcLoopVals]
    by_cases hok : con.check (scopeVals con (assignVar s x d)) = true
    · simp only [hok, if_true]
      rw [fcLoopVals_length con x ds, length_unassignVar, length_assignVar]
    · simp only [hok, if_false, Bool.false_eq_true]
      rw [fcLoopVals_length con x ds, length_unassignVar, length_pruneVar, length_assignVar]

/-! # Forward-checking scan: store discipline and spec agreement -/

theorem contains_eq_not_isEmpty : ∀ (dom : List Int) (cd : List Bool),
    cd.length ≤ dom.length →
    cd.contains true
      = !(((dom.zip cd).filterMap (fun p => if p.2 then some p.1 else none)).isEmpty)
  | _, [], _ => by simp
  | [], _ :: _, h => by simp at h
  | d :: ds, b :: bs, h => by
    cases b with
    | true => simp
    | false =>
      simp only [List.zip_cons_cons, List.filterMap_cons, if_false]
      rw [show (List.contains (false :: bs) true) = bs.contains true by simp]
      exact contains_eq_not_isEmpty ds bs (Nat.le_of_succ_le_succ h)

theorem fcLoopVals_fields (con : Constraint) (x : Nat) :
    ∀ (ds : List Int) (s : VState) (u : Nat),
      (getV (fcLoopVals con x ds s).2 u).dom = (getV s u).dom ∧
      (getV (fcLoopVals con x ds s).2 u).curdom.length = (getV s u).curdom.length
  | [], _, _ => ⟨rfl, rfl⟩
  | d :: ds, s, u => by
    rw [fcLoopVals]
    by_cases hok : con.check (scopeVals con (assignVar s x d)) = true
    · simp only [hok, if_true]
      obtain ⟨hd, hc⟩ := fcLoopVals_fields con x ds (unassignVar (assignVar s x d) x) u
      constructor
      · rw [hd, unassignVar_dom, assignVar_dom]
      · rw [hc, unassignVar_curdom, assignVar_curdom]
    · simp only [hok, Bool.false_eq_true, if_false]
      obtain ⟨hd, hc⟩ :=
        fcLoopVals_fields con x ds (unassignVar (pruneVar (assignVar s x d) x d) x) u
      constructor
      · rw [hd, unassignVar_dom, pruneVar_dom, assignVar_dom]
      · rw [hc, unassignVar_curdom, pruneVar_curdom_length, assignVar_curdom]

theorem fcLoopValsSpec_eq (con : Constraint) (x : Nat) :
    ∀ (ds : List Int) (s : VState), fcLoopValsSpec con x ds s = fcLoopVals con x ds s
  | [], _ => rfl
  | d :: ds, s => by
    rw [fcLoopValsSpec, fcLoopVals, fcLoopValsSpec_eq con x ds]

theorem fccheck_eq_fccheckSpec (con : Constraint) (x : Nat) (s : VState)
    (hwf : (getV s x).curdom.length ≤ (getV s x).dom.length) :
    fccheck con x s = fccheckSpec con x s := by
  obtain ⟨hd, hc⟩ := fcLoopVals_fields con x (cur_domain (getV s x)) s x
  rw [fccheck, fccheckSpec, fcLoopValsSpec_eq]
  congr 1
  exact contains_eq_not_isEmpty _ _ (by rw [hc, hd]; exact hwf)

theorem fcScan_assigned (csp : CSP) :
    ∀ (cis : List Nat) (s : VState) (u : Nat),
      (getV (fcScan csp cis s).2.2 u).assigned = (getV s u).assigned
  | [], _, _ => rfl
  | ci :: rest, s, u => by
    by_cases h1 : (csp.cons.getD ci default).nUnasgn s = 1
    · simp only [fcScan, if_pos h1]
      set c := csp.cons.getD ci default with hcdef
      set uv := (c.unasgnVars s).headD 0 with huv
      have hnone : (getV s uv).assigned = none := headD_unasgn_assigned c s h1
      have hstep : ∀ w, (getV (fccheck c uv s).2.2 w).assigned = (getV s w).assigned :=
        fun w => (fcLoopVals_state c uv (cur_domain (getV s uv)) s hnone w).1
      by_cases hr : (fccheck c uv s).1 = true
      · simp only [hr, if_true]
        rw [fcScan_assigned csp rest (fccheck c uv s).2.2 u]
        exact hstep u
      · simp only [hr, Bool.false_eq_true, if_false]
        exact hstep u
    · simp only [fcScan, if_neg h1]
      exact fcScan_assigned csp rest s u

theorem fcScan_fields (csp : CSP) :
    ∀ (cis : List Nat) (s : VState) (u : Nat),
      (getV (fcScan csp cis s).2.2 u).dom = (getV s u).dom ∧
      (getV (fcScan csp cis s).2.2 u).curdom.length = (getV s u).curdom.length
  | [], _, _ => ⟨rfl, rfl⟩
  | ci :: rest, s, u => by
    by_cases h1 : (csp.cons.getD ci default).nUnasgn s = 1
    · simp only [fcScan, if_pos h1]
      set c := csp.cons.getD ci default with hcdef
      set uv := (c.unasgnVars s).headD 0 with huv
      have hstep := fun w => fcLoopVals_fields c uv (cur_domain (getV s uv)) s w
      by_cases hr : (fccheck c uv s).1 = true
      · simp only [hr, if_true]
        obtain ⟨hd, hc⟩ := fcScan_fields csp rest (fccheck c uv s).2.2 u
        exact ⟨by rw [hd]; exact (hstep u).1, by rw [hc]; exact (hstep u).2⟩
      · simp only [hr, Bool.false_eq_true, if_false]
        exact hstep u
    · simp only [fcScan, if_neg h1]
      exact fcScan_fields csp rest s u

theorem fcScan_eq_fcScanSpec (csp : CSP) :
    ∀ (cis : List Nat) (s : VState),
      (∀ u, (getV s u).curdom.length ≤ (getV s u).dom.length) →
      fcScan csp cis s = fcScanSpec csp cis s
  | [], _, _ => rfl
  | ci :: rest, s, hwf => by
    by_cases h1 : (csp.cons.getD ci default).nUnasgn s = 1
    · simp only [fcScan, fcScanSpec, if_pos h1]
      set c := csp.cons.getD ci default with hcdef
      set uv := (c.unasgnVars s).headD 0 with huv
      have heq : fccheck c uv s = fccheckSpec c uv s :=
        fccheck_eq_fccheckSpec c uv s (hwf uv)
      have hwf2 : ∀ u, (getV (fccheck c uv s).2.2 u).curdom.length
          ≤ (getV (fccheck c uv s).2.2 u).dom.length := by
        intro u
        obtain ⟨hd, hc⟩ := fcLoopVals_fields c uv (cur_domain (getV s uv)) s u
        rw [show (fccheck c uv s).2.2 = (fcLoopVals c uv (cur_domain (getV s uv)) s).2 from rfl]
        rw [hd, hc]
        exact hwf u
      rw [← heq]
      by_cases hr : (fccheck c uv s).1 = true
      · simp only [hr, if_true]
        rw [fcScan_eq_fcScanSpec csp rest (fccheck c uv s).2.2 hwf2]
      · simp only [hr, Bool.false_eq_true, if_false]
    · simp only [fcScan, fcScanSpec, if_neg h1]
      exact fcScan_eq_fcScanSpec csp rest s hwf

/-- C6: `prop_FC` invoked with a changed variable agrees exactly, on any
well-formed store (current-domain flag list no longer than the domain, as
every store built by the models is), with the specification's description:
`fc-check` runs precisely on the constraints containing the changed
variable that have exactly one unassigned variable, each check probing
every current-domain value by a tentative assignment undone before the
next value and pruning exactly the failing values, and the scan stops at
the first domain-wipeout, returning false with the pruning accumulated up
to and including it. -/
theorem prop_FC_newvar_refines_spec (csp : CSP) (s : VState) (v : Nat)
    (hwf : ∀ u, (getV s u).curdom.length ≤ (getV s u).dom.length) :
    prop_FC csp s (some v) = propFCSpec csp s v := by
  show (let r := fcScan csp (consWithVar csp v) s; ((!r.1, r.2.1, r.2.2) : Bool × _)) = _
  rw [propFCSpec, fcScan_eq_fcScanSpec csp (consWithVar csp v) s hwf]

/-- Witness for the forward-checking refinement on a concrete store. -/
theorem prop_FC_newvar_refines_spec_witness :
    prop_FC cspDup sDom12 (some 0) = propFCSpec cspDup sDom12 0 :=
  prop_FC_newvar_refines_spec cspDup sDom12 0 (fun u => by
    cases u with
    | zero => decide
    | succ n => show (0 : Nat) ≤ 0; exact Nat.le_refl 0)

theorem fcOuter_assigned (csp : CSP) :
    ∀ (cis : List Nat) (s : VState) (rp : List (Nat × Int)) (succ : Bool)
      (pr : List (Nat × Int)) (u : Nat),
      (getV (fcOuter csp cis s rp succ pr).2.2 u).assigned = (getV s u).assigned
  | [], _, _, _, _, _ => rfl
  | ci :: rest, s, rp, succ, pr, u => by
    by_cases h1 : (csp.cons.getD ci default).nUnasgn s = 1
    · simp only [fcOuter, if_pos h1]
      set nv := ((csp.cons.getD ci default).unasgnVars s).headD 0 with hnv
      rw [fcOuter_assigned csp rest _ _ _ _ u]
      exact fcScan_assigned csp (consWithVar csp nv) s u
    · simp only [fcOuter, if_neg h1]
      exact fcOuter_assigned csp rest s rp succ pr u

theorem prop_FC_assigned (csp : CSP) (s : VState) (newVar : Option Nat) (u : Nat) :
    (getV (prop_FC csp s newVar).2.2 u).assigned = (getV s u).assigned := by
  cases newVar with
  | none => exact fcOuter_assigned csp (allCons csp) s [] true [] u
  | some v => exact fcScan_assigned csp (consWithVar csp v) s u

/-! # Queue append discipline -/

theorem enqueueNew_supset (j : Nat) : ∀ (es q : List Nat), j ∈ q → j ∈ enqueueNew q es
  | [], _, h => h
  | e :: es, q, h => by
    rw [enqueueNew]
    by_cases he : e ∈ q
    · rw [if_pos he]
      exact enqueueNew_supset j es q h
    · rw [if_neg he]
      exact enqueueNew_supset j es (q ++ [e]) (List.mem_append_left [e] h)

theorem enqueueNew_mem_right (j : Nat) : ∀ (es q : List Nat), j ∈ es → j ∈ enqueueNew q es
  | [], _, h => absurd h (List.not_mem_nil j)
  | e :: es, q, h => by
    rw [enqueueNew]
    rcases List.mem_cons.1 h with h1 | h1
    · subst h1
      by_cases he : j ∈ q
      · rw [if_pos he]
        exact enqueueNew_supset j es q he
      · rw [if_neg he]
        exact enqueueNew_supset j es (q ++ [j]) (List.mem_append_right q (List.mem_singleton_self j))
    · by_cases he : e ∈ q
      · rw [if_pos he]
        exact enqueueNew_mem_right j es q h1
      · rw [if_neg he]
        exact enqueueNew_mem_right j es (q ++ [e]) h1

theorem enqueueNew_nodup : ∀ (es q : List Nat), q.Nodup → (enqueueNew q es).Nodup
  | [], _, h => h
  | e :: es, q, h => by
    rw [enqueueNew]
    by_cases he : e ∈ q
    · rw [if_pos he]
      exact enqueueNew_nodup es q h
    · rw [if_neg he]
      refine enqueueNew_nodup es (q ++ [e]) ?_
      rw [List.nodup_append]
      exact ⟨h, List.nodup_singleton e,
        fun a ha hae => he ((List.mem_singleton.1 hae) ▸ ha)⟩

theorem enqueueNew_mem_inv (j : Nat) : ∀ (es q : List Nat),
    j ∈ enqueueNew q es → j ∈ q ∨ j ∈ es
  | [], _, h => Or.inl h
  | e :: es, q, h => by
    rw [enqueueNew] at h
    by_cases he : e ∈ q
    · rw [if_pos he] at h
      rcases enqueueNew_mem_inv j es q h with h1 | h1
      · exact Or.inl h1
      · exact Or.inr (List.mem_cons_of_mem e h1)
    · rw [if_neg he] at h
      rcases enqueueNew_mem_inv j es (q ++ [e]) h with h1 | h1
      · rcases List.mem_append.1 h1 with h2 | h2
        · exact Or.inl h2
        · exact Or.inr (List.mem_cons.2 (Or.inl (List.mem_singleton.1 h2)))
      · exact Or.inr (List.mem_cons_of_mem e h1)

/-! # Trial-assignment lists and the support search -/

theorem state_eq_of_getV (s t : VState) (hl : s.length = t.length)
    (h : ∀ u, getV s u = getV t u) : s = t := by
  apply List.ext_getElem hl
  intro i h1 h2
  have := h i
  rw [getV, getV, List.getD_eq_getElem?_getD, List.getD_eq_getElem?_getD,
    List.getElem?_eq_getElem h1, List.getElem?_eq_getElem h2] at this
  exact_mod_cast this

theorem mem_map_fst_zip (u : Nat) : ∀ (l1 : List Nat) (l2 : List Int),
    u ∈ (l1.zip l2).map Prod.fst → u ∈ l1 := by
  intro l1 l2 h
  rcases List.mem_map.1 h with ⟨p, hp, he⟩
  subst he
  exact (List.of_mem_zip hp).1

theorem assignList_length : ∀ (l : List (Nat × Int)) (s : VState),
    (assignList l s).length = s.length
  | [], _ => rfl
  | (u, d) :: rest, s => by
    rw [assignList, assignList_length rest, length_assignVar]

theorem unassignList_length : ∀ (us : List Nat) (s : VState),
    (unassignList us s).length = s.length
  | [], _ => rfl
  | u :: rest, s => by
    rw [unassignList, unassignList_length rest, length_unassignVar]

theorem assignList_getV_notmem : ∀ (l : List (Nat × Int)) (s : VState) (u : Nat),
    u ∉ l.map Prod.fst → getV (assignList l s) u = getV s u
  | [], _, _, _ => rfl
  | (w, d) :: rest, s, u, h => by
    have hw : u ≠ w := fun he => h (by rw [he]; exact List.mem_cons_self w _)
    have hrest : u ∉ rest.map Prod.fst := fun he => h (List.mem_cons_of_mem w he)
    rw [assignList, assignList_getV_notmem rest _ u hrest, getV_assignVar_ne s w u d hw]

theorem assignList_fields : ∀ (l : List (Nat × Int)) (s : VState) (u : Nat),
    (getV (assignList l s) u).dom = (getV s u).dom ∧
    (getV (assignList l s) u).curdom = (getV s u).curdom
  | [], _, _ => ⟨rfl, rfl⟩
  | (w, d) :: rest, s, u => by
    obtain ⟨h1, h2⟩ := assignList_fields rest (assignVar s w d) u
    rw [assignList]
    exact ⟨by rw [h1, assignVar_dom], by rw [h2, assignVar_curdom]⟩

theorem unassignList_getV_notmem : ∀ (us : List Nat) (s : VState) (u : Nat),
    u ∉ us → getV (unassignList us s) u = getV s u
  | [], _, _, _ => rfl
  | w :: rest, s, u, h => by
    have hw : u ≠ w := fun he => h (by rw [he]; exact List.mem_cons_self w _)
    have hrest : u ∉ rest := fun he => h (List.mem_cons_of_mem w he)
    rw [unassignList, unassignList_getV_notmem rest _ u hrest, getV_unassignVar_ne s w u hw]

theorem unassignList_fields : ∀ (us : List Nat) (s : VState) (u : Nat),
    (getV (unassignList us s) u).dom = (getV s u).dom ∧
    (getV (unassignList us s) u).curdom = (getV s u).curdom
  | [], _, _ => ⟨rfl, rfl⟩
  | w :: rest, s, u => by
    obtain ⟨h1, h2⟩ := unassignList_fields rest (unassignVar s w) u
    rw [unassignList]
    exact ⟨by rw [h1, unassignVar_dom], by rw [h2, unassignVar_curdom]⟩

theorem unassignVar_assigned_self (s : VState) (i : Nat) :
    (getV (unassignVar s i) i).assigned = none := by
  by_cases hl : i < s.length
  · rw [unassignVar, getV_set_eq _ _ _ hl]
  · rw [unassignVar, List.set_eq_of_length_le (le_of_not_lt hl)]
    rw [getV, List.getD_eq_getElem?_getD, List.getElem?_eq_none (le_of_not_lt hl)]
    rfl

theorem unassignList_assigned_mem : ∀ (us : List Nat) (s : VState) (u : Nat),
    u ∈ us → (getV (unassignList us s) u).assigned = none
  | [], _, _, h => absurd h (List.not_mem_nil _)
  | w :: rest, s, u, h => by
    by_cases hu : u ∈ rest
    · exact unassignList_assigned_mem rest _ u hu
    · have huw : u = w := by
        rcases List.mem_cons.1 h with h1 | h1
        · exact h1
        · exact absurd h1 hu
      subst huw
      rw [unassignList, unassignList_getV_notmem rest _ u hu]
      exact unassignVar_assigned_self s u

theorem unassign_assign_list_restore (us : List Nat) (combo : List Int) (s : VState)
    (h : ∀ u ∈ us, (getV s u).assigned = none) :
    unassignList us (assignList (us.zip combo) s) = s := by
  apply state_eq_of_getV
  · rw [unassignList_length, assignList_length]
  · intro u
    by_cases hu : u ∈ us
    · obtain ⟨hd, hc⟩ := unassignList_fields us (assignList (us.zip combo) s) u
      obtain ⟨hd2, hc2⟩ := assignList_fields (us.zip combo) s u
      refine variable_eq_of_fields ?_ ?_ ?_
      · rw [hd, hd2]
      · rw [hc, hc2]
      · rw [unassignList_assigned_mem us _ u hu, h u hu]
    · rw [unassignList_getV_notmem us _ u hu,
        assignList_getV_notmem (us.zip combo) s u
          (fun he => hu (mem_map_fst_zip u us combo he))]

theorem findSupport_eq (c : Constraint) (uvars : List Nat) :
    ∀ (combos : List (List Int)) (s : VState),
      (∀ u ∈ uvars, (getV s u).assigned = none) →
      findSupport c uvars combos s =
        (combos.any (fun combo => c.check (scopeVals c (assignList (uvars.zip combo) s))), s)
  | [], _, _ => rfl
  | combo :: rest, s, h => by
    rw [findSupport, unassign_assign_list_restore uvars combo s h]
    by_cases hf : c.check (scopeVals c (assignList (uvars.zip combo) s)) = true
    · simp only [hf, if_true, List.any_cons, Bool.true_or]
    · simp only [hf, Bool.false_eq_true, if_false, List.any_cons, Bool.false_or]
      exact findSupport_eq c uvars rest s h

theorem findSupport_run (c : Constraint) (s : VState) (v : Nat) (x : Int) :
    findSupport c (c.unasgnVars (assignVar s v x))
      (cartProd ((c.unasgnVars (assignVar s v x)).map
        (fun u => cur_domain (getV (assignVar s v x) u))))
      (assignVar s v x)
    = (hasSupport c s v x, assignVar s v x) := by
  rw [findSupport_eq c _ _ _ (fun u hu => mem_unasgnVars_assigned _ _ u hu)]
  rfl

theorem mem_consWithVar (csp : CSP) (j v : Nat) :
    j ∈ consWithVar csp v ↔
      j < csp.cons.length ∧ v ∈ (csp.cons.getD j default).scope := by
  rw [consWithVar, List.mem_filter, List.mem_range]
  constructor
  · rintro ⟨h1, h2⟩
    exact ⟨h1, (List.elem_iff).1 h2⟩
  · rintro ⟨h1, h2⟩
    exact ⟨h1, (List.elem_iff).2 h2⟩

/-! # The GAC value loop: one package lemma per exit kind -/

theorem gacValues_inl (csp : CSP) (c : Constraint) (v : Nat) :
    ∀ (xs : List Int) (s : VState) (q : List Nat) (acc : List (Nat × Int))
      {s2 : VState} {q2 : List Nat} {acc2 : List (Nat × Int)},
      gacValues csp c v xs s q acc = Sum.inl (s2, q2, acc2) →
      (getV s v).assigned = none →
      ∃ δ, acc2 = acc ++ δ ∧
        (∀ p ∈ δ, p.1 = v) ∧
        (∀ j ∈ q, j ∈ q2) ∧
        (∀ u, (getV s2 u).assigned = (getV s u).assigned) ∧
        (∀ u, u ≠ v → getV s2 u = getV s u) ∧
        s2.length = s.length ∧
        (δ = [] → s2 = s ∧ q2 = q ∧ ∀ x ∈ xs, hasSupport c s v x = true) ∧
        (δ ≠ [] → ∀ j ∈ consWithVar csp v, j ∈ q2) ∧
        (q.Nodup → q2.Nodup) ∧
        (∀ j ∈ q2, j ∈ q ∨ j ∈ consWithVar csp v) ∧
        (δ ≠ [] → cur_domain (getV s2 v) ≠ [])
  | [], s, q, acc, s2, q2, acc2, heq, _ => by
    rw [gacValues] at heq
    simp only [Sum.inl.injEq, Prod.mk.injEq] at heq
    obtain ⟨rfl, rfl, rfl⟩ := heq
    refine ⟨[], (List.append_nil acc).symm, ?_, ?_, ?_, ?_, ?_, ?_, ?_, ?_, ?_, ?_⟩
    · intro p hp
      exact absurd hp (List.not_mem_nil p)
    · intro j hj
      exact hj
    · intro u
      rfl
    · intro u _
      rfl
    · rfl
    · intro _
      exact ⟨rfl, rfl, fun x hx => absurd hx (List.not_mem_nil x)⟩
    · intro h
      exact absurd rfl h
    · intro h
      exact h
    · intro j hj
      exact Or.inl hj
    · intro h
      exact absurd rfl h
  | x :: xs, s, q, acc, s2, q2, acc2, heq, hv => by
    rw [gacValues] at heq
    simp only [findSupport_run c s v x, unassign_assign_eq s v x hv] at heq
    by_cases hsup : hasSupport c s v x = true
    · rw [if_pos hsup] at heq
      obtain ⟨δ, h1, h2, h3, h4, h5, h6, h7, h8, h9, h10, h11⟩ :=
        gacValues_inl csp c v xs s q acc heq hv
      refine ⟨δ, h1, h2, h3, h4, h5, h6, ?_, h8, h9, h10, h11⟩
      intro hδ
      obtain ⟨e1, e2, e3⟩ := h7 hδ
      refine ⟨e1, e2, ?_⟩
      intro y hy
      rcases List.mem_cons.1 hy with h | h
      · subst h
        exact hsup
      · exact e3 y h
    · rw [if_neg hsup] at heq
      by_cases hwipe : cur_domain (getV (pruneVar s v x) v) = []
      · rw [if_pos hwipe] at heq
        exact absurd heq (by simp)
      · rw [if_neg hwipe] at heq
        have hv4 : (getV (pruneVar s v x) v).assigned = none := by
          rw [pruneVar_assigned]
          exact hv
        obtain ⟨δ, h1, h2, h3, h4, h5, h6, h7, h8, h9, h10, h11⟩ :=
          gacValues_inl csp c v xs (pruneVar s v x)
            (enqueueNew q (consWithVar csp v)) (acc ++ [(v, x)]) heq hv4
        refine ⟨(v, x) :: δ, ?_, ?_, ?_, ?_, ?_, ?_, ?_, ?_, ?_, ?_, ?_⟩
        · rw [h1, List.append_assoc]
          rfl
        · intro p hp
          rcases List.mem_cons.1 hp with h | h
          · rw [h]
          · exact h2 p h
        · intro j hj
          exact h3 j (enqueueNew_supset j (consWithVar csp v) q hj)
        · intro u
          rw [h4 u, pruneVar_assigned]
        · intro u hu
          rw [h5 u hu, getV_pruneVar_ne s v u x hu]
        · rw [h6, length_pruneVar]
        · intro h
          exact absurd h (List.cons_ne_nil (v, x) δ)
        · intro _ j hj
          exact h3 j (enqueueNew_mem_right j (consWithVar csp v) q hj)
        · intro hnd
          exact h9 (enqueueNew_nodup (consWithVar csp v) q hnd)
        · intro j hj
          rcases h10 j hj with h | h
          · rcases enqueueNew_mem_inv j (consWithVar csp v) q h with h' | h'
            · exact Or.inl h'
            · exact Or.inr h'
          · exact Or.inr h
        · intro _
          cases hδ : δ with
          | nil =>
            rw [(h7 hδ).1]
            exact hwipe
          | cons p δ2 =>
            exact h11 (by rw [hδ]; exact List.cons_ne_nil p δ2)

theorem gacValues_inr (csp : CSP) (c : Constraint) (v : Nat) :
    ∀ (xs : List Int) (s : VState) (q : List Nat) (acc : List (Nat × Int))
      {s2 : VState} {acc2 : List (Nat × Int)},
      gacValues csp c v xs s q acc = Sum.inr (s2, acc2) →
      (getV s v).assigned = none →
      (∃ pre y, acc2 = pre ++ [(v, y)] ∧ cur_domain (getV s2 v) = []) ∧
      (∀ u, (getV s2 u).assigned = (getV s u).assigned) ∧
      s2.length = s.length
  | [], s, q, acc, s2, acc2, heq, _ => by
    rw [gacValues] at heq
    exact absurd heq (by simp)
  | x :: xs, s, q, acc, s2, acc2, heq, hv => by
    rw [gacValues] at heq
    simp only [findSupport_run c s v x, unassign_assign_eq s v x hv] at heq
    by_cases hsup : hasSupport c s v x = true
    · rw [if_pos hsup] at heq
      exact gacValues_inr csp c v xs s q acc heq hv
    · rw [if_neg hsup] at heq
      by_cases hwipe : cur_domain (getV (pruneVar s v x) v) = []
      · rw [if_pos hwipe] at heq
        simp only [Sum.inr.injEq, Prod.mk.injEq] at heq
        obtain ⟨rfl, rfl⟩ := heq
        exact ⟨⟨acc, x, rfl, hwipe⟩,
          fun u => by rw [pruneVar_assigned], length_pruneVar s v x⟩
      · rw [if_neg hwipe] at heq
        have hv4 : (getV (pruneVar s v x) v).assigned = none := by
          rw [pruneVar_assigned]
          exact hv
        obtain ⟨⟨pre, y, e1, e2⟩, e3, e4⟩ :=
          gacValues_inr csp c v xs (pruneVar s v x)
            (enqueueNew q (consWithVar csp v)) (acc ++ [(v, x)]) heq hv4
        refine ⟨⟨pre, y, e1, e2⟩, ?_, ?_⟩
        · intro u
          rw [e3 u, pruneVar_assigned]
        · rw [e4, length_pruneVar]

/-! # The GAC variable loop -/

theorem gacVars_inl (csp : CSP) (c : Constraint) :
    ∀ (vars : List Nat) (s : VState) (q : List Nat) (acc : List (Nat × Int))
      {s2 : VState} {q2 : List Nat} {acc2 : List (Nat × Int)},
      gacVars csp c vars s q acc = Sum.inl (s2, q2, acc2) →
      (∀ w ∈ vars, (getV s w).assigned = none) →
      ∃ δ, acc2 = acc ++ δ ∧
        (∀ p ∈ δ, p.1 ∈ vars) ∧
        (∀ j ∈ q, j ∈ q2) ∧
        (∀ u, (getV s2 u).assigned = (getV s u).assigned) ∧
        (∀ u, (∀ p ∈ δ, p.1 ≠ u) → getV s2 u = getV s u) ∧
        s2.length = s.length ∧
        (δ = [] → s2 = s ∧ q2 = q ∧
          ∀ w ∈ vars, ∀ x ∈ cur_domain (getV s w), hasSupport c s w x = true) ∧
        (∀ p ∈ δ, ∀ j ∈ consWithVar csp p.1, j ∈ q2) ∧
        (q.Nodup → q2.Nodup) ∧
        (∀ j ∈ q2, j ∈ q ∨ j ∈ List.range csp.cons.length) ∧
        (∀ p ∈ δ, cur_domain (getV s2 p.1) ≠ [])
  | [], s, q, acc, s2, q2, acc2, heq, _ => by
    rw [gacVars] at heq
    simp only [Sum.inl.injEq, Prod.mk.injEq] at heq
    obtain ⟨rfl, rfl, rfl⟩ := heq
    refine ⟨[], (List.append_nil acc).symm, ?_, fun j hj => hj, fun u => rfl,
      fun u _ => rfl, rfl, ?_, ?_, fun h => h, fun j hj => Or.inl hj, ?_⟩
    · intro p hp
      exact absurd hp (List.not_mem_nil p)
    · intro _
      exact ⟨rfl, rfl, fun w hw => absurd hw (List.not_mem_nil w)⟩
    · intro p hp
      exact absurd hp (List.not_mem_nil p)
    · intro p hp
      exact absurd hp (List.not_mem_nil p)
  | v :: vs, s, q, acc, s2, q2, acc2, heq, hvs => by
    rw [gacVars] at heq
    rcases hgv : gacValues csp c v (cur_domain (getV s v)) s q acc with r | r
    · rw [hgv] at heq
      obtain ⟨s1, q1, acc1⟩ := r
      simp only at heq
      have hv : (getV s v).assigned = none := hvs v (List.mem_cons_self v vs)
      obtain ⟨δv, g1, g2, g3, g4, g5, g6, g7, g8, g9, g10, g11⟩ :=
        gacValues_inl csp c v (cur_domain (getV s v)) s q acc hgv hv
      have hvs1 : ∀ w ∈ vs, (getV s1 w).assigned = none := by
        intro w hw
        rw [g4 w]
        exact hvs w (List.mem_cons_of_mem v hw)
      obtain ⟨δ', i1, i2, i3, i4, i5, i6, i7, i8, i9, i10, i11⟩ :=
        gacVars_inl csp c vs s1 q1 acc1 heq hvs1
      refine ⟨δv ++ δ', ?_, ?_, ?_, ?_, ?_, ?_, ?_, ?_, ?_, ?_, ?_⟩
      · rw [i1, g1, List.append_assoc]
      · intro p hp
        rcases List.mem_append.1 hp with h | h
        · rw [g2 p h]
          exact List.mem_cons_self v vs
        · exact List.mem_cons_of_mem v (i2 p h)
      · intro j hj
        exact i3 j (g3 j hj)
      · intro u
        rw [i4 u, g4 u]
      · intro u hu
        have hu2 : ∀ p ∈ δ', p.1 ≠ u :=
          fun p hp => hu p (List.mem_append_right δv hp)
        rw [i5 u hu2]
        by_cases huv : u = v
        · subst huv
          cases hδv : δv with
          | nil =>
            rw [(g7 hδv).1]
          | cons p δv2 =>
            exfalso
            refine hu p (List.mem_append_left δ' ?_) ?_
            · rw [hδv]
              exact List.mem_cons_self p δv2
            · exact g2 p (by rw [hδv]; exact List.mem_cons_self p δv2)
        · exact g5 u huv
      · rw [i6, g6]
      · intro hδ
        obtain ⟨h1, h2⟩ := List.append_eq_nil.1 hδ
        obtain ⟨e1, e2, e3⟩ := g7 h1
        subst e1
        subst e2
        obtain ⟨f1, f2, f3⟩ := i7 h2
        refine ⟨f1, f2, ?_⟩
        intro w hw
        rcases List.mem_cons.1 hw with h | h
        · subst h
          exact e3
        · exact f3 w h
      · intro p hp j hj
        rcases List.mem_append.1 hp with h | h
        · have hne : δv ≠ [] := by
            intro hnil
            rw [hnil] at h
            exact absurd h (List.not_mem_nil p)
          have := g8 hne j (by rw [g2 p h] at hj; exact hj)
          exact i3 j this
        · exact i8 p h j hj
      · intro hnd
        exact i9 (g9 hnd)
      · intro j hj
        rcases i10 j hj with h | h
        · rcases g10 j h with h' | h'
          · exact Or.inl h'
          · exact Or.inr (List.mem_range.2 ((mem_consWithVar csp j v).1 h').1)
        · exact Or.inr h
      · intro p hp
        rcases List.mem_append.1 hp with h | h
        · by_cases hv2 : ∀ p2 ∈ δ', p2.1 ≠ p.1
          · rw [i5 p.1 hv2, g2 p h]
            refine g11 ?_
            intro hnil
            rw [hnil] at h
            exact absurd h (List.not_mem_nil p)
          · push_neg at hv2
            obtain ⟨p2, hp2, he⟩ := hv2
            rw [← he]
            exact i11 p2 hp2
        · exact i11 p h
    · rw [hgv] at heq
      exact absurd heq (by simp)

theorem gacVars_inr (csp : CSP) (c : Constraint) :
    ∀ (vars : List Nat) (s : VState) (q : List Nat) (acc : List (Nat × Int))
      {s2 : VState} {acc2 : List (Nat × Int)},
      gacVars csp c vars s q acc = Sum.inr (s2, acc2) →
      (∀ w ∈ vars, (getV s w).assigned = none) →
      (∃ pre w y, acc2 = pre ++ [(w, y)] ∧ cur_domain (getV s2 w) = []) ∧
      (∀ u, (getV s2 u).assigned = (getV s u).assigned) ∧
      s2.length = s.length
  | [], s, q, acc, s2, acc2, heq, _ => by
    rw [gacVars] at heq
    exact absurd heq (by simp)
  | v :: vs, s, q, acc, s2, acc2, heq, hvs => by
    rw [gacVars] at heq
    rcases hgv : gacValues csp c v (cur_domain (getV s v)) s q acc with r | r
    · rw [hgv] at heq
      obtain ⟨s1, q1, acc1⟩ := r
      simp only at heq
      have hv : (getV s v).assigned = none := hvs v (List.mem_cons_self v vs)
      obtain ⟨δv, g1, g2, g3, g4, g5, g6, g7, g8, g9, g10, g11⟩ :=
        gacValues_inl csp c v (cur_domain (getV s v)) s q acc hgv hv
      have hvs1 : ∀ w ∈ vs, (getV s1 w).assigned = none := by
        intro w hw
        rw [g4 w]
        exact hvs w (List.mem_cons_of_mem v hw)
      obtain ⟨he, i2, i3⟩ := gacVars_inr csp c vs s1 q1 acc1 heq hvs1
      refine ⟨he, ?_, ?_⟩
      · intro u
        rw [i2 u, g4 u]
      · rw [i3, g6]
    · rw [hgv] at heq
      obtain ⟨s1, acc1⟩ := r
      simp only [Sum.inr.injEq, Prod.mk.injEq] at heq
      obtain ⟨rfl, rfl⟩ := heq
      have hv : (getV s v).assigned = none := hvs v (List.mem_cons_self v vs)
      obtain ⟨⟨pre, y, e1, e2⟩, e3, e4⟩ :=
        gacValues_inr csp c v (cur_domain (getV s v)) s q acc hgv hv
      exact ⟨⟨pre, v, y, e1, e2⟩, e3, e4⟩

/-! # The no-prune direction: an arc-consistent store is left untouched -/

theorem gacValues_allSupported (csp : CSP) (c : Constraint) (v : Nat) :
    ∀ (xs : List Int) (s : VState) (q : List Nat) (acc : List (Nat × Int)),
      (getV s v).assigned = none →
      (∀ x ∈ xs, hasSupport c s v x = true) →
      gacValues csp c v xs s q acc = Sum.inl (s, q, acc)
  | [], _, _, _, _, _ => rfl
  | x :: xs, s, q, acc, hv, hsup => by
    rw [gacValues]
    simp only [findSupport_run c s v x, unassign_assign_eq s v x hv]
    rw [if_pos (hsup x (List.mem_cons_self x xs))]
    exact gacValues_allSupported csp c v xs s q acc hv
      (fun y hy => hsup y (List.mem_cons_of_mem x hy))

theorem gacVars_allSupported (csp : CSP) (c : Constraint) :
    ∀ (vars : List Nat) (s : VState) (q : List Nat) (acc : List (Nat × Int)),
      (∀ w ∈ vars, (getV s w).assigned = none) →
      (∀ w ∈ vars, ∀ x ∈ cur_domain (getV s w), hasSupport c s w x = true) →
      gacVars csp c vars s q acc = Sum.inl (s, q, acc)
  | [], _, _, _, _, _ => rfl
  | v :: vs, s, q, acc, hvs, hsup => by
    rw [gacVars,
      gacValues_allSupported csp c v (cur_domain (getV s v)) s q acc
        (hvs v (List.mem_cons_self v vs)) (hsup v (List.mem_cons_self v vs))]
    exact gacVars_allSupported csp c vs s q acc
      (fun w hw => hvs w (List.mem_cons_of_mem v hw))
      (fun w hw => hsup w (List.mem_cons_of_mem v hw))

/-! # Worklist loop: assignment restoration and wipeout shape -/

theorem gacLoop_assigned (csp : CSP) : ∀ (fuel : Nat) (q : List Nat) (s : VState)
    (acc : List (Nat × Int)) {r : Bool × List (Nat × Int) × VState},
    gacLoop csp fuel q s acc = some r →
    ∀ u, (getV r.2.2 u).assigned = (getV s u).assigned
  | 0, _, _, _, _, heq => absurd heq (by simp [gacLoop])
  | fuel + 1, [], s, acc, r, heq => by
    rw [gacLoop] at heq
    simp only [Option.some.injEq] at heq
    subst heq
    intro u
    rfl
  | fuel + 1, ci :: qrest, s, acc, r, heq => by
    rw [gacLoop] at heq
    have hvs : ∀ w ∈ (csp.cons.getD ci default).unasgnVars s, (getV s w).assigned = none :=
      fun w hw => mem_unasgnVars_assigned _ _ w hw
    rcases hpc : processCon csp (csp.cons.getD ci default) s qrest with rp | rp
    · rw [hpc] at heq
      simp only at heq
      obtain ⟨δ, _, _, _, g4, _, _, _, _, _, _, _⟩ :=
        gacVars_inl csp (csp.cons.getD ci default) _ s qrest [] hpc hvs
      intro u
      rw [gacLoop_assigned csp fuel rp.2.1 rp.1 (acc ++ rp.2.2) heq u, g4 u]
    · rw [hpc] at heq
      simp only [Option.some.injEq] at heq
      subst heq
      obtain ⟨_, e2, _⟩ :=
        gacVars_inr csp (csp.cons.getD ci default) _ s qrest [] hpc hvs
      exact e2

theorem gacLoop_wipeout (csp : CSP) : ∀ (fuel : Nat) (q : List Nat) (s : VState)
    (acc : List (Nat × Int)) {r : Bool × List (Nat × Int) × VState},
    gacLoop csp fuel q s acc = some r → r.1 = false →
    ∃ pre w y, r.2.1 = pre ++ [(w, y)] ∧ cur_domain (getV r.2.2 w) = []
  | 0, _, _, _, _, heq, _ => absurd heq (by simp [gacLoop])
  | fuel + 1, [], s, acc, r, heq, hfalse => by
    rw [gacLoop] at heq
    simp only [Option.some.injEq] at heq
    subst heq
    exact absurd hfalse (by simp)
  | fuel + 1, ci :: qrest, s, acc, r, heq, hfalse => by
    rw [gacLoop] at heq
    have hvs : ∀ w ∈ (csp.cons.getD ci default).unasgnVars s, (getV s w).assigned = none :=
      fun w hw => mem_unasgnVars_assigned _ _ w hw
    rcases hpc : processCon csp (csp.cons.getD ci default) s qrest with rp | rp
    · rw [hpc] at heq
      simp only at heq
      exact gacLoop_wipeout csp fuel rp.2.1 rp.1 (acc ++ rp.2.2) heq hfalse
    · rw [hpc] at heq
      simp only [Option.some.injEq] at heq
      subst heq
      obtain ⟨⟨pre, w, y, e1, e2⟩, _, _⟩ :=
        gacVars_inr csp (csp.cons.getD ci default) _ s qrest [] hpc hvs
      exact ⟨acc ++ pre, w, y, by rw [e1, List.append_assoc], e2⟩

theorem gacLoop_true_nonempty (csp : CSP) : ∀ (fuel : Nat) (q : List Nat) (s : VState)
    (acc : List (Nat × Int)) {r : Bool × List (Nat × Int) × VState},
    gacLoop csp fuel q s acc = some r → r.1 = true →
    (∀ p ∈ acc, cur_domain (getV s p.1) ≠ []) →
    ∀ p ∈ r.2.1, cur_domain (getV r.2.2 p.1) ≠ []
  | 0, _, _, _, _, heq, _, _ => absurd heq (by simp [gacLoop])
  | fuel + 1, [], s, acc, r, heq, _, hacc => by
    rw [gacLoop] at heq
    simp only [Option.some.injEq] at heq
    subst heq
    exact hacc
  | fuel + 1, ci :: qrest, s, acc, r, heq, htrue, hacc => by
    rw [gacLoop] at heq
    have hvs : ∀ w ∈ (csp.cons.getD ci default).unasgnVars s, (getV s w).assigned = none :=
      fun w hw => mem_unasgnVars_assigned _ _ w hw
    rcases hpc : processCon csp (csp.cons.getD ci default) s qrest with rp | rp
    · rw [hpc] at heq
      simp only at heq
      obtain ⟨δ, g1, g2, g3, g4, g5, g6, g7, g8, g9, g10, g11⟩ :=
        gacVars_inl csp (csp.cons.getD ci default) _ s qrest [] hpc hvs
      have hδ : rp.2.2 = δ := by
        rw [g1]
        rfl
      have hacc1 : ∀ p ∈ acc ++ rp.2.2, cur_domain (getV rp.1 p.1) ≠ [] := by
        intro p hp
        rcases List.mem_append.1 hp with h | h
        · by_cases hv2 : ∀ p2 ∈ δ, p2.1 ≠ p.1
          · rw [g5 p.1 hv2]
            exact hacc p h
          · push_neg at hv2
            obtain ⟨p2, hp2, he⟩ := hv2
            rw [← he]
            exact g11 p2 hp2
        · rw [hδ] at h
          exact g11 p h
      exact gacLoop_true_nonempty csp fuel rp.2.1 rp.1 (acc ++ rp.2.2) heq htrue hacc1
    · rw [hpc] at heq
      simp only [Option.some.injEq] at heq
      subst heq
      exact absurd htrue (by simp)

/-- C5: a `gac_enforce` run returns false exactly by a domain wipeout —
when it reports a dead end, the pruning record ends at the wipeout pair (a
value of a variable whose current domain is empty in the returned store),
no later pruning was performed and the remaining worklist was discarded by
the early return; and when it returns true, no recorded prune ever emptied
its variable's domain (every pruned variable's current domain is still
non-empty at return). -/
theorem gac_wipeout_aborts (csp : CSP) (s : VState) (q : List Nat)
    (r : Bool × List (Nat × Int) × VState)
    (heq : gac_enforce csp s q = some r) :
    (r.1 = false →
      ∃ pre w y, r.2.1 = pre ++ [(w, y)] ∧ cur_domain (getV r.2.2 w) = []) ∧
    (r.1 = true → ∀ p ∈ r.2.1, cur_domain (getV r.2.2 p.1) ≠ []) :=
  ⟨gacLoop_wipeout csp (bigFuel csp s q) q s [] heq,
   fun htrue => gacLoop_true_nonempty csp (bigFuel csp s q) q s [] heq htrue
     (fun p hp => absurd hp (List.not_mem_nil p))⟩

/-- Witness for the wipeout theorem: a single unsatisfiable unary
constraint empties its variable's domain. -/
theorem gac_wipeout_aborts_witness :
    ∃ pre w y,
      (((false, [((0 : Nat), (1 : Int))], [⟨[1], [false], none⟩]) :
        Bool × List (Nat × Int) × VState)).2.1 = pre ++ [(w, y)] ∧
      cur_domain (getV (((false, [((0 : Nat), (1 : Int))], [⟨[1], [false], none⟩]) :
        Bool × List (Nat × Int) × VState)).2.2 w) = [] :=
  (gac_wipeout_aborts ⟨[⟨[0], []⟩]⟩ [⟨[1], [true], none⟩] [0]
    (false, [(0, 1)], [⟨[1], [false], none⟩]) (by decide)).1 rfl

/-- C4: on every exit path of `prop_FC` and `prop_GAC`, every variable's
assignment slot in the returned store equals its value in the entry
store — tentative probe assignments are always undone, also on early
wipeout returns. -/
theorem propagators_restore_assignments (csp : CSP) (s : VState) (newVar : Option Nat) :
    (∀ u, (getV (prop_FC csp s newVar).2.2 u).assigned = (getV s u).assigned) ∧
    (∀ r : Bool × List (Nat × Int) × VState, prop_GAC csp s newVar = some r →
      ∀ u, (getV r.2.2 u).assigned = (getV s u).assigned) := by
  refine ⟨prop_FC_assigned csp s newVar, ?_⟩
  intro r heq u
  cases newVar with
  | none => exact gacLoop_assigned csp (bigFuel csp s (allCons csp)) (allCons csp) s [] heq u
  | some v =>
    exact gacLoop_assigned csp (bigFuel csp s (consWithVar csp v)) (consWithVar csp v) s [] heq u

/-- Witness for assignment restoration on concrete runs of both
propagators. -/
theorem propagators_restore_assignments_witness :
    ((getV (prop_FC cspDup sDom12 none).2.2 0).assigned = (getV sDom12 0).assigned) ∧
    ((getV (((true, [], sAsgn1) : Bool × List (Nat × Int) × VState)).2.2 0).assigned
      = (getV sAsgn1 0).assigned) :=
  ⟨(propagators_restore_assignments cspDup sDom12 none).1 0,
   (propagators_restore_assignments cspIdem sAsgn1 none).2 (true, [], sAsgn1) rfl 0⟩

/-! # Worklist queue: no duplicates at any time -/

/-- C8: starting from a duplicate-free worklist, the queue of
`gac_enforce` is duplicate-free at the start of every loop iteration —
the front is popped and a constraint already present is never re-added. -/
theorem gac_queue_nodup (csp : CSP) : ∀ (n : Nat) (q : List Nat) (s : VState),
    q.Nodup → (gacQueueAt csp n q s).1.Nodup
  | 0, _, _, h => h
  | n + 1, [], s, _ => by
    rw [gacQueueAt]
    exact List.nodup_nil
  | n + 1, ci :: qrest, s, hnd => by
    rw [gacQueueAt]
    have hvs : ∀ w ∈ (csp.cons.getD ci default).unasgnVars s, (getV s w).assigned = none :=
      fun w hw => mem_unasgnVars_assigned _ _ w hw
    rcases hpc : processCon csp (csp.cons.getD ci default) s qrest with rp | rp
    · simp only
      obtain ⟨δ, _, _, _, _, _, _, _, _, g9, _, _⟩ :=
        gacVars_inl csp (csp.cons.getD ci default) _ s qrest [] hpc hvs
      exact gac_queue_nodup csp n rp.2.1 rp.1 (g9 (List.nodup_cons.1 hnd).2)
    · simp only
      exact List.nodup_nil

/-- Witness for the queue invariant on the 2 by 2 grid run. -/
theorem gac_queue_nodup_witness :
    (gacQueueAt csp22 2 [0, 1] s22a).1.Nodup :=
  gac_queue_nodup csp22 2 [0, 1] s22a (by decide)

/-! # Arc consistency depends only on the scope variables -/

theorem getV_assignVar_point (s : VState) (i : Nat) (d : Int) (u : Nat) :
    getV (assignVar s i d) u =
      if u = i ∧ i < s.length then { getV s i with assigned := some d } else getV s u := by
  by_cases hui : u = i
  · subst hui
    by_cases hl : u < s.length
    · rw [if_pos ⟨rfl, hl⟩, assignVar, getV_set_eq _ _ _ hl]
    · rw [if_neg (fun hc => hl hc.2), assignVar, List.set_eq_of_length_le (le_of_not_lt hl)]
  · rw [if_neg (fun hc => hui hc.1)]
    exact getV_assignVar_ne s i u d hui

theorem assignVar_congr (S : List Nat) (s' s : VState) (hlen : s'.length = s.length)
    (h : ∀ u ∈ S, getV s' u = getV s u) (w : Nat) (d : Int) :
    ∀ u ∈ S, getV (assignVar s' w d) u = getV (assignVar s w d) u := by
  intro u hu
  rw [getV_assignVar_point, getV_assignVar_point, hlen]
  by_cases hc : u = w ∧ w < s.length
  · rw [if_pos hc, if_pos hc]
    have : getV s' w = getV s w := hc.1 ▸ h u hu
    rw [this]
  · rw [if_neg hc, if_neg hc]
    exact h u hu

theorem assignList_congr (S : List Nat) : ∀ (l : List (Nat × Int)) (s' s : VState),
    s'.length = s.length → (∀ u ∈ S, getV s' u = getV s u) →
    ∀ u ∈ S, getV (assignList l s') u = getV (assignList l s) u
  | [], _, _, _, h, u, hu => h u hu
  | (w, d) :: rest, s', s, hlen, h, u, hu => by
    rw [assignList, assignList]
    refine assignList_congr S rest (assignVar s' w d) (assignVar s w d) ?_ ?_ u hu
    · rw [length_assignVar, length_assignVar, hlen]
    · exact assignVar_congr S s' s hlen h w d

theorem list_any_congr {α : Type} (l : List α) (f g : α → Bool)
    (h : ∀ a ∈ l, f a = g a) : l.any f = l.any g := by
  induction l with
  | nil => rfl
  | cons a rest ih =>
    rw [List.any_cons, List.any_cons, h a (List.mem_cons_self a rest),
      ih (fun b hb => h b (List.mem_cons_of_mem a hb))]

theorem scopeVals_congr (c : Constraint) (s' s : VState)
    (h : ∀ u ∈ c.scope, getV s' u = getV s u) : scopeVals c s' = scopeVals c s := by
  rw [scopeVals, scopeVals]
  exact List.map_congr_left (fun u hu => by rw [h u hu])

theorem unasgnVars_congr (c : Constraint) (s' s : VState)
    (h : ∀ u ∈ c.scope, getV s' u = getV s u) : c.unasgnVars s' = c.unasgnVars s := by
  rw [Constraint.unasgnVars, Constraint.unasgnVars]
  exact List.filter_congr (fun u hu => by rw [h u hu])

theorem hasSupport_congr (c : Constraint) (s' s : VState) (v : Nat) (x : Int)
    (hlen : s'.length = s.length) (h : ∀ u ∈ c.scope, getV s' u = getV s u) :
    hasSupport c s' v x = hasSupport c s v x := by
  have h1 : ∀ u ∈ c.scope, getV (assignVar s' v x) u = getV (assignVar s v x) u :=
    assignVar_congr c.scope s' s hlen h v x
  have hlen1 : (assignVar s' v x).length = (assignVar s v x).length := by
    rw [length_assignVar, length_assignVar, hlen]
  have h2 : c.unasgnVars (assignVar s' v x) = c.unasgnVars (assignVar s v x) :=
    unasgnVars_congr c _ _ h1
  show (cartProd ((c.unasgnVars (assignVar s' v x)).map
      (fun u => cur_domain (getV (assignVar s' v x) u)))).any _ = _
  rw [h2]
  have h3 : (c.unasgnVars (assignVar s v x)).map
      (fun u => cur_domain (getV (assignVar s' v x) u))
      = (c.unasgnVars (assignVar s v x)).map
        (fun u => cur_domain (getV (assignVar s v x) u)) :=
    List.map_congr_left (fun u hu => by
      rw [h1 u (mem_unasgnVars_scope c (assignVar s v x) u hu)])
  rw [h3]
  refine list_any_congr _ _ _ ?_
  intro combo _
  have h4 : ∀ u ∈ c.scope,
      getV (assignList ((c.unasgnVars (assignVar s v x)).zip combo) (assignVar s' v x)) u
      = getV (assignList ((c.unasgnVars (assignVar s v x)).zip combo) (assignVar s v x)) u :=
    assignList_congr c.scope _ _ _ hlen1 h1
  rw [scopeVals_congr c _ _ h4]

theorem arcConsistent_congr (c : Constraint) (s' s : VState)
    (hlen : s'.length = s.length) (h : ∀ u ∈ c.scope, getV s' u = getV s u) :
    arcConsistent c s' ↔ arcConsistent c s := by
  rw [arcConsistent, arcConsistent, unasgnVars_congr c s' s h]
  constructor
  · intro hac v hv x hx
    have hvd : cur_domain (getV s' v) = cur_domain (getV s v) := by
      rw [h v (mem_unasgnVars_scope c s v hv)]
    rw [← hasSupport_congr c s' s v x hlen h]
    exact hac v hv x (by rw [hvd]; exact hx)
  · intro hac v hv x hx
    have hvd : cur_domain (getV s' v) = cur_domain (getV s v) := by
      rw [h v (mem_unasgnVars_scope c s v hv)]
    rw [hasSupport_congr c s' s v x hlen h]
    exact hac v hv x (by rw [← hvd]; exact hx)

/-! # Termination of the worklist leaves every constraint arc-consistent -/

theorem gacLoop_true_ac (csp : CSP) : ∀ (fuel : Nat) (q : List Nat) (s : VState)
    (acc : List (Nat × Int)) {r : Bool × List (Nat × Int) × VState},
    gacLoop csp fuel q s acc = some r → r.1 = true →
    (∀ j ∈ q, j < csp.cons.length) →
    (∀ i, i < csp.cons.length → i ∉ q → arcConsistent (csp.cons.getD i default) s) →
    ∀ i, i < csp.cons.length → arcConsistent (csp.cons.getD i default) r.2.2
  | 0, _, _, _, _, heq, _, _, _ => absurd heq (by simp [gacLoop])
  | fuel + 1, [], s, acc, r, heq, _, _, hinv => by
    rw [gacLoop] at heq
    simp only [Option.some.injEq] at heq
    subst heq
    intro i hi
    exact hinv i hi (List.not_mem_nil i)
  | fuel + 1, ci :: qrest, s, acc, r, heq, htrue, hvalid, hinv => by
    rw [gacLoop] at heq
    have hvs : ∀ w ∈ (csp.cons.getD ci default).unasgnVars s, (getV s w).assigned = none :=
      fun w hw => mem_unasgnVars_assigned _ _ w hw
    rcases hpc : processCon csp (csp.cons.getD ci default) s qrest with rp | rp
    · rw [hpc] at heq
      simp only at heq
      obtain ⟨δ, g1, g2, g3, g4, g5, g6, g7, g8, g9, g10, g11⟩ :=
        gacVars_inl csp (csp.cons.getD ci default) _ s qrest [] hpc hvs
      have hvalid1 : ∀ j ∈ rp.2.1, j < csp.cons.length := by
        intro j hj
        rcases g10 j hj with h | h
        · exact hvalid j (List.mem_cons_of_mem ci h)
        · exact List.mem_range.1 h
      have hinv1 : ∀ i, i < csp.cons.length → i ∉ rp.2.1 →
          arcConsistent (csp.cons.getD i default) rp.1 := by
        intro i hilen hiq1
        have hagree : ∀ u ∈ (csp.cons.getD i default).scope, getV rp.1 u = getV s u := by
          intro u hu
          refine g5 u ?_
          intro p hpδ hpu
          refine hiq1 (g8 p hpδ i ?_)
          rw [hpu]
          exact (mem_consWithVar csp i u).2 ⟨hilen, hu⟩
        by_cases hci : i = ci
        · subst hci
          have hδnil : δ = [] := by
            cases hδ : δ with
            | nil => rfl
            | cons p δ2 =>
              exfalso
              have hpmem : p ∈ δ := by
                rw [hδ]
                exact List.mem_cons_self p δ2
              have hp1 : p.1 ∈ (csp.cons.getD i default).scope :=
                mem_unasgnVars_scope _ _ _ (g2 p hpmem)
              exact hiq1 (g8 p hpmem i ((mem_consWithVar csp i p.1).2 ⟨hilen, hp1⟩))
          obtain ⟨e1, _, e3⟩ := g7 hδnil
          rw [e1]
          exact e3
        · have hiq : i ∉ ci :: qrest := by
            intro hmem
            rcases List.mem_cons.1 hmem with h | h
            · exact hci h
            · exact hiq1 (g3 i h)
          exact (arcConsistent_congr _ rp.1 s g6 hagree).2 (hinv i hilen hiq)
      exact gacLoop_true_ac csp fuel rp.2.1 rp.1 (acc ++ rp.2.2) heq htrue hvalid1 hinv1
    · rw [hpc] at heq
      simp only [Option.some.injEq] at heq
      subst heq
      exact absurd htrue (by simp)

/-! # On an arc-consistent store the worklist drains without change -/

theorem gacLoop_noop (csp : CSP) (s : VState)
    (hac : ∀ i, i < csp.cons.length → arcConsistent (csp.cons.getD i default) s) :
    ∀ (q : List Nat) (fuel : Nat) (acc : List (Nat × Int)),
      (∀ j ∈ q, j < csp.cons.length) → q.length < fuel →
      gacLoop csp fuel q s acc = some (true, acc, s)
  | [], fuel, acc, _, hfuel => by
    cases fuel with
    | zero => exact absurd hfuel (by simp)
    | succ f => rfl
  | ci :: qrest, fuel, acc, hvalid, hfuel => by
    cases fuel with
    | zero => exact absurd hfuel (by simp)
    | succ f =>
      rw [gacLoop]
      have hci : ci < csp.cons.length := hvalid ci (List.mem_cons_self ci qrest)
      have hvs : ∀ w ∈ (csp.cons.getD ci default).unasgnVars s,
          (getV s w).assigned = none :=
        fun w hw => mem_unasgnVars_assigned _ _ w hw
      have hpc : processCon csp (csp.cons.getD ci default) s qrest = Sum.inl (s, qrest, []) :=
        gacVars_allSupported csp _ _ s qrest [] hvs (hac ci hci)
      rw [hpc]
      simp only
      rw [List.append_nil]
      refine gacLoop_noop csp s hac qrest f acc
        (fun j hj => hvalid j (List.mem_cons_of_mem ci hj)) ?_
      have : qrest.length + 1 < f + 1 := hfuel
      omega

/-- C9: if the pre-search GAC call succeeds with pruning record `P` and
final store `s2`, then invoking `prop_GAC` again with no changed variable
on `s2` succeeds with an empty pruning record and the unchanged store —
a store the fixpoint has made arc-consistent admits no further pruning. -/
theorem prop_GAC_idempotent (csp : CSP) (s : VState) (P : List (Nat × Int)) (s2 : VState)
    (h : prop_GAC csp s none = some (true, P, s2)) :
    prop_GAC csp s2 none = some (true, [], s2) := by
  have h2 : gacLoop csp (bigFuel csp s (allCons csp)) (allCons csp) s [] = some (true, P, s2) := h
  have hvalid : ∀ j ∈ allCons csp, j < csp.cons.length := fun j hj => List.mem_range.1 hj
  have hinv : ∀ i, i < csp.cons.length → i ∉ allCons csp →
      arcConsistent (csp.cons.getD i default) s :=
    fun i hi hq => absurd (List.mem_range.2 hi) hq
  have hac := gacLoop_true_ac csp _ _ s [] h2 rfl hvalid hinv
  show gacLoop csp (bigFuel csp s2 (allCons csp)) (allCons csp) s2 [] = some (true, [], s2)
  refine gacLoop_noop csp s2 hac (allCons csp) (bigFuel csp s2 (allCons csp)) [] hvalid ?_
  rw [bigFuel]
  omega

/-- Witness for idempotence: a CSP whose single constraint is already
satisfied by an assigned variable. -/
theorem prop_GAC_idempotent_witness :
    prop_GAC cspIdem sAsgn1 none = some (true, [], sAsgn1) :=
  prop_GAC_idempotent cspIdem sAsgn1 [] sAsgn1 rfl

